import Mathlib

/-!
Verification of the Chain Reaction engine (`src/core/board.py`,
`src/ai/minimax.py`, `src/ai/heuristics.py`) against its specification.

Shallow embedding conventions:
* Python lists become Lean `List`s; the grid is a `List (List Cell)`.
* Cell owners are Python ints (`-1` empty, `0` red, `1` blue), modelled as `Int`.
* The unbounded `while changed:` resolution loop of `Board.place` is modelled
  with explicit fuel; `none` means the loop has not finished within the fuel.
* Float scores of the search are modelled as exact values: `ℚ` for heuristic
  leaves, extended with `±∞` (type `Ext`) for the negamax bounds, mirroring
  Python's `math.inf` arithmetic on the operations the search performs
  (negation, comparison, max).
* The optional wall-clock deadline of `minimax` is modelled in its disabled
  state (`time_limit=None`), in which the time test is never taken.
-/

set_option maxRecDepth 100000

namespace ChainReaction

/-- `ROWS = 9` from `board.py`. -/
def ROWS : Nat := 9

/-- `COLS = 6` from `board.py`. -/
def COLS : Nat := 6

/-- `RED = 0` from `board.py`. -/
def RED : Int := 0

/-- `BLUE = 1` from `board.py`. -/
def BLUE : Int := 1

/-- `EMPTY = -1` from `board.py`. -/
def EMPTY : Int := -1

/-- A board cell: `Cell(owner, count)` from `board.py`. -/
structure Cell where
  owner : Int
  count : Nat
deriving DecidableEq, Repr

/-- The default cell used when indexing out of range (Python would raise;
all indexing performed by the embedded code stays in range on well-formed
grids, and this default is inert: it never triggers an explosion). -/
def defCell : Cell := ⟨EMPTY, 0⟩

/-- The mutable grid of `Board.place`: a 9-row list of 6-cell rows. -/
abbrev Grid := List (List Cell)

/-- `CRITS[r][c] = 4 - (r in (0, ROWS-1)) - (c in (0, COLS-1))` from
`board.py`: the number of orthogonal neighbours of cell `(r, c)`. -/
def crits (r c : Nat) : Nat :=
  4 - (if r = 0 ∨ r = ROWS - 1 then 1 else 0) - (if c = 0 ∨ c = COLS - 1 then 1 else 0)

/-- Read cell `(r, c)` of a grid (`g[r][c]` in Python). -/
def getC (g : Grid) (r c : Nat) : Cell :=
  ((g.getD r []).getD c defCell)

/-- Write cell `(r, c)` of a grid (`g[r][c] = v` in Python). -/
def setC (g : Grid) (r c : Nat) (v : Cell) : Grid :=
  g.set r ((g.getD r []).set c v)

/-- Total number of orbs in one row. -/
def rowOrbs (row : List Cell) : Nat := (row.map Cell.count).sum

/-- `totalOrbs` of the spec: the sum of all cell counts. -/
def totalOrbs (g : Grid) : Nat := (g.map rowOrbs).sum

/-- The neighbour offsets `((1,0), (-1,0), (0,1), (0,-1))` used by
`Board.place`. -/
def dirs : List (Int × Int) := [(1, 0), (-1, 0), (0, 1), (0, -1)]

/-- One neighbour update of an explosion: `if 0 <= nr < ROWS and
0 <= nc < COLS: g[nr][nc] = Cell(owner, ncell.count+1)`. -/
def bump (g : Grid) (o : Int) (nr nc : Int) : Grid :=
  if 0 ≤ nr ∧ nr < (ROWS : Int) ∧ 0 ≤ nc ∧ nc < (COLS : Int) then
    let r := nr.toNat
    let c := nc.toNat
    setC g r c ⟨o, (getC g r c).count + 1⟩
  else g

/-- The explosion of cell `(rr, cc)` in `Board.place`: record the owner,
reset the cell to `Cell(EMPTY, 0)`, then bump each orthogonal in-bounds
neighbour in the source's direction order. -/
def explode (g : Grid) (rr cc : Nat) : Grid :=
  let o := (getC g rr cc).owner
  let g1 := setC g rr cc ⟨EMPTY, 0⟩
  dirs.foldl (fun h d => bump h o ((rr : Int) + d.1) ((cc : Int) + d.2)) g1

/-- The explosion trigger tested at each scanned position:
`cell.count >= CRITS[rr][cc] and cell.owner != EMPTY`. -/
def trigg (g : Grid) (rr cc : Nat) : Bool :=
  crits rr cc ≤ (getC g rr cc).count && (getC g rr cc).owner ≠ EMPTY

/-- One step of the row-major scan inside a resolution pass: the state is
the current grid together with the `changed` flag. -/
def scanStep (a : Grid × Bool) (p : Nat × Nat) : Grid × Bool :=
  if trigg a.1 p.1 p.2 then (explode a.1 p.1 p.2, true) else a

/-- One full pass of the resolution loop of `Board.place`:
`for rr in range(ROWS): for cc in range(COLS): ...`, starting from
`changed = False`. -/
def passG (g : Grid) : Grid × Bool :=
  (List.range ROWS).foldl
    (fun a rr => (List.range COLS).foldl (fun b cc => scanStep b (rr, cc)) a)
    (g, false)

/-- The `while changed:` resolution loop of `Board.place`, with fuel;
`none` means the loop did not finish within `fuel` passes. -/
def resolveF : Nat → Grid → Option Grid
  | 0, _ => none
  | fuel + 1, g => cond (passG g).2 (resolveF fuel (passG g).1) (some (passG g).1)

/-- Step 1 of `Board.place`: `g[r][c] = Cell(player, cell.count + 1)` —
note there is no ownership test of any kind before this write. -/
def addOrb (g : Grid) (p : Int) (r c : Nat) : Grid :=
  setC g r c ⟨p, (getC g r c).count + 1⟩

/-- `Board.place(player, (r, c))` with fuel for the resolution loop. -/
def placeF (fuel : Nat) (g : Grid) (p : Int) (rc : Nat × Nat) : Option Grid :=
  resolveF fuel (addOrb g p rc.1 rc.2)

/-- `Board.place` terminates on the given input for some amount of fuel. -/
def placeTerminates (g : Grid) (p : Int) (rc : Nat × Nat) : Prop :=
  ∃ fuel, (placeF fuel g p rc).isSome

/-- The row-major list of all grid coordinates. -/
def rowMajor : List (Nat × Nat) :=
  (List.range ROWS).flatMap (fun r => (List.range COLS).map (fun c => (r, c)))

/-- `Board.legal_moves(player)`: every coordinate, in row-major order, whose
cell's owner is the player or `EMPTY`. -/
def legalMoves (g : Grid) (p : Int) : List (Nat × Nat) :=
  rowMajor.filter (fun rc => (getC g rc.1 rc.2).owner = p ∨ (getC g rc.1 rc.2).owner = EMPTY)

/-- `Board.score(player)`: sum of counts over the player's cells. -/
def score (g : Grid) (p : Int) : Nat :=
  (((g.flatMap id).filter (fun c => c.owner = p)).map Cell.count).sum

/-- `Board.has_player(player)`: some cell is owned by the player. -/
def hasPlayer (g : Grid) (p : Int) : Bool :=
  (g.flatMap id).any (fun c => c.owner = p)

/-- `Board.winner()`: the sole colour remaining, if any. -/
def winner (g : Grid) : Option Int :=
  if hasPlayer g RED && !hasPlayer g BLUE then some RED
  else if hasPlayer g BLUE && !hasPlayer g RED then some BLUE
  else none

/-- The all-empty 9×6 grid (`Board.empty()`). -/
def emptyGrid : Grid :=
  List.replicate ROWS (List.replicate COLS defCell)

/-- A grid is well-formed when it has the fixed 9×6 geometry. -/
def wfGrid (g : Grid) : Prop :=
  g.length = ROWS ∧ ∀ row ∈ g, row.length = COLS

/-- Stability, bounded to the board geometry: every cell's count is below
its critical mass. -/
def stableP (g : Grid) : Prop :=
  ∀ r, r < ROWS → ∀ c, c < COLS → (getC g r c).count < crits r c

/-- The data-model invariant of the spec (`owner = None ⇔ count = 0`),
in the direction the code needs, bounded to the board geometry. -/
def coherentP (g : Grid) : Prop :=
  ∀ r, r < ROWS → ∀ c, c < COLS →
    (getC g r c).owner = EMPTY → (getC g r c).count = 0

instance (g : Grid) : Decidable (wfGrid g) := by
  unfold wfGrid; infer_instance

instance (g : Grid) : Decidable (stableP g) := by
  unfold stableP; infer_instance

instance (g : Grid) : Decidable (coherentP g) := by
  unfold coherentP; infer_instance

/-! ### Heuristics (`src/ai/heuristics.py`)

Python's `for r, row in enumerate(b.grid)` is embedded as indexed iteration
`for r in range(len(g))` with `getC`; float results are modelled exactly
(`Int` where the Python value is integral, `ℚ` for `imminent_explosions`). -/

/-- `orb_difference(b, p) = b.score(p) - b.score(1 - p)`. -/
def orbDifference (g : Grid) (p : Int) : Int :=
  (score g p : Int) - (score g (1 - p) : Int)

/-- `weighted_orb(b, p)`: counts weighted by `5 - CRITS[r][c]`. -/
def weightedOrb (g : Grid) (p : Int) : Int :=
  (List.range g.length).foldl (fun s r =>
    (List.range (g.getD r []).length).foldl (fun t c =>
      let cell := getC g r c
      let w : Int := 5 - (crits r c : Int)
      if cell.owner = p then t + (cell.count : Int) * w
      else if cell.owner = 1 - p then t - (cell.count : Int) * w
      else t) s) 0

/-- The direction list `((1, 0), (0, 1))` of `frontier`. -/
def fdirs : List (Nat × Nat) := [(1, 0), (0, 1)]

/-- `frontier(b, p)` as implemented: each shared border inspected once by
looking only right and down; `continue` on out-of-bounds neighbours. -/
def frontier (g : Grid) (p : Int) : Int :=
  let rows := g.length
  let cols := (g.headD []).length
  (List.range g.length).foldl (fun s r =>
    (List.range (g.getD r []).length).foldl (fun t c =>
      fdirs.foldl (fun u d =>
        let nr := r + d.1
        let nc := c + d.2
        if nr ≥ rows ∨ nc ≥ cols then u
        else if (getC g r c).owner = p ∧ (getC g nr nc).owner = 1 - p then u + 1
        else if (getC g r c).owner = 1 - p ∧ (getC g nr nc).owner = p then u - 1
        else u) t) s) 0

/-- `mobility(b, p) = len(b.legal_moves(p)) - len(b.legal_moves(1 - p))`. -/
def mobility (g : Grid) (p : Int) : Int :=
  ((legalMoves g p).length : Int) - ((legalMoves g (1 - p)).length : Int)

/-- `imminent_explosions(b, p)`: `±4/need` per owned cell, with
`need = CRITS[r][c] - cell.count` (exact rational arithmetic in place of
Python floats). -/
def imminent (g : Grid) (p : Int) : ℚ :=
  (List.range g.length).foldl (fun s r =>
    (List.range (g.getD r []).length).foldl (fun t c =>
      let cell := getC g r c
      let need : ℚ := (crits r c : ℚ) - (cell.count : ℚ)
      if cell.owner = p then t + 4 / need
      else if cell.owner = 1 - p then t - 4 / need
      else t) s) 0

/-! ### Search scores

`minimax` computes with `±math.inf` and exact heuristic values; `Ext` is
the exact model of the score domain with the three operations the search
uses: negation, strict comparison and `max`. -/

/-- Extended score: `-∞`, a finite value, or `+∞`. -/
inductive Ext where
  | ninf : Ext
  | num : ℚ → Ext
  | pinf : Ext
deriving DecidableEq, Repr

/-- Negation on extended scores. -/
def Ext.neg : Ext → Ext
  | ninf => pinf
  | pinf => ninf
  | num q => num (-q)

/-- Strict `<` on extended scores, as a Boolean. -/
def Ext.blt : Ext → Ext → Bool
  | ninf, ninf => false
  | ninf, num _ => true
  | ninf, pinf => true
  | num _, ninf => false
  | num a, num b => decide (a < b)
  | num _, pinf => true
  | pinf, _ => false

/-- Python's `max(a, b)`: returns `a` unless `b` is strictly greater. -/
def Ext.bmax (a b : Ext) : Ext := if Ext.blt a b then b else a

/-- A move, or `None` at leaves/terminal nodes. -/
abbrev MoveOpt := Option (Nat × Nat)

/-! ### Search (`src/ai/minimax.py`)

Embedded with the optional deadline disabled (`time_limit=None`): the
`time.perf_counter` test in the leaf cutoff is then never taken.  A single
fuel bounds both the recursion and the chain-reaction loops of `place`;
`none` models divergence/fuel exhaustion. -/

/-- The move loop of `minimax`: negamax over the legal moves with α-β
window, tracking the best value and move; `break` on `alpha >= beta`. -/
def mmLoop (rec : Grid → Nat → Int → Bool → Ext → Ext → Option (Ext × MoveOpt))
    (fuel : Nat) (b : Grid) (depth : Nat) (p : Int) (started : Bool) :
    List (Nat × Nat) → Ext → MoveOpt → Ext → Ext → Option (Ext × MoveOpt)
  | [], bv, bm, _, _ => some (bv, bm)
  | mv :: rest, bv, bm, alpha, beta =>
    match placeF fuel b p mv with
    | none => none
    | some child =>
      let cs := started || (hasPlayer child RED && hasPlayer child BLUE)
      match rec child (depth - 1) (1 - p) cs beta.neg alpha.neg with
      | none => none
      | some r =>
        let v := r.1.neg
        let bv' := if Ext.blt bv v then v else bv
        let bm' := if Ext.blt bv v then some mv else bm
        let alpha' := Ext.bmax alpha v
        if Ext.blt alpha' beta then
          mmLoop rec fuel b depth p started rest bv' bm' alpha' beta
        else some (bv', bm')

/-- `minimax(board, depth, player, eval_fn, started, alpha, beta)` with
fuel; returns `(score, best_move)`. -/
def mmF (ev : Grid → Int → ℚ) :
    Nat → Grid → Nat → Int → Bool → Ext → Ext → Option (Ext × MoveOpt)
  | 0, _, _, _, _, _, _ => none
  | fuel + 1, b, depth, p, started, alpha, beta =>
    match (if started then winner b else none) with
    | some w => some ((if w = p then Ext.pinf else Ext.ninf), none)
    | none =>
      if depth = 0 then some (Ext.num (ev b p), none)
      else
        mmLoop (fun b' d' p' s' a' b'' => mmF ev fuel b' d' p' s' a' b'')
          fuel b depth p started (legalMoves b p) Ext.ninf none alpha beta

/-- `orb_difference` lifted to the score domain of the search. -/
def orbDiffQ (g : Grid) (p : Int) : ℚ := (orbDifference g p : ℚ)

/-! ### Specification-side definitions

These definitions follow the spec's words, to be compared with the
source-side definitions above. -/

/-- The spec's single resolution pass, following §4.1 word for word: visit
the cells in row-major order; a visited cell with `count ≥ criticalMass`
and `owner ≠ None` explodes immediately, in place, before the scan
continues from the next grid position. -/
def specScan : List (Nat × Nat) → Grid × Bool → Grid × Bool
  | [], a => a
  | rc :: rest, a =>
    if trigg a.1 rc.1 rc.2 then specScan rest (explode a.1 rc.1 rc.2, true)
    else specScan rest a

/-- The spec's resolution loop: repeat full row-major passes until a pass
produces no explosion (with the same fuel discipline as `resolveF`). -/
def specResolve : Nat → Grid → Option Grid
  | 0, _ => none
  | fuel + 1, g =>
    cond (specScan rowMajor (g, false)).2
      (specResolve fuel (specScan rowMajor (g, false)).1)
      (some (specScan rowMajor (g, false)).1)

/-- `applyMove` as the spec states it: increment the target cell, set its
owner to the player, then resolve with `specResolve`. -/
def placeSpecF (fuel : Nat) (g : Grid) (p : Int) (rc : Nat × Nat) : Option Grid :=
  specResolve fuel (addOrb g p rc.1 rc.2)

/-- The ±1 contribution of one ordered pair of adjacent cells in the
frontier strategies. -/
def fcontrib (g : Grid) (p : Int) (r c nr nc : Nat) : Int :=
  if (getC g r c).owner = p ∧ (getC g nr nc).owner = 1 - p then 1
  else if (getC g r c).owner = 1 - p ∧ (getC g nr nc).owner = p then -1
  else 0

/-- The frontier strategy as claim C9 words it: sum over every ordered pair
of orthogonally adjacent cells, checking all four directions from each
cell, so each physical border is counted from both sides. -/
def frontierSpec4 (g : Grid) (p : Int) : Int :=
  (rowMajor.map (fun rc =>
    (dirs.map (fun d =>
      let nr := (rc.1 : Int) + d.1
      let nc := (rc.2 : Int) + d.2
      if 0 ≤ nr ∧ nr < (ROWS : Int) ∧ 0 ≤ nc ∧ nc < (COLS : Int) then
        fcontrib g p rc.1 rc.2 nr.toNat nc.toNat
      else 0)).sum)).sum

/-- The frontier strategy as amended: each physical border counted exactly
once, by checking only the right and down neighbour of each cell. -/
def frontierSpec2 (g : Grid) (p : Int) : Int :=
  (rowMajor.map (fun rc =>
    (fdirs.map (fun d =>
      let nr := rc.1 + d.1
      let nc := rc.2 + d.2
      if nr < ROWS ∧ nc < COLS then fcontrib g p rc.1 rc.2 nr nc
      else 0)).sum)).sum

/-! ### Concrete boards used by counterexamples and witnesses -/

/-- Build a 9×6 grid from an association list of populated cells. -/
def mkGrid (l : List ((Nat × Nat) × Cell)) : Grid :=
  (List.range ROWS).map (fun r => (List.range COLS).map (fun c =>
    match l.find? (fun x => x.1 = (r, c)) with
    | some x => x.2
    | none => defCell))

/-- A stable board on which a single red placement at `(0, 0)` destroys an
orb: chained explosions push `(1, 1)` to count 5 > 4 before it is scanned. -/
def gC4 : Grid :=
  mkGrid [((0, 0), ⟨RED, 1⟩), ((0, 1), ⟨RED, 2⟩), ((1, 0), ⟨RED, 2⟩), ((1, 1), ⟨RED, 3⟩)]

/-- Every cell red at critical mass − 1: the maximal stable single-colour
board.  One more orb makes the resolution loop run forever. -/
def gFull : Grid :=
  (List.range ROWS).map (fun r => (List.range COLS).map (fun c =>
    (⟨RED, crits r c - 1⟩ : Cell)))

/-- The grid reached one pass after `addOrb gFull RED 0 0`: a fixed point
of the pass function that still reports an explosion, so the resolution
loop never ends. -/
def gLoop : Grid :=
  (List.range ROWS).map (fun r => (List.range COLS).map (fun c =>
    if r = 8 ∧ c = 5 then (⟨EMPTY, 0⟩ : Cell)
    else if r = 8 ∨ c = 5 then ⟨RED, 1⟩
    else ⟨RED, 2⟩))

/-- A board whose every cell is blue: red has no legal moves. -/
def gAllBlue : Grid :=
  (List.range ROWS).map (fun _ => (List.range COLS).map (fun _ => (⟨BLUE, 1⟩ : Cell)))

/-- A board with a single red orb: red is the winner once play has started. -/
def gRedOnly : Grid := mkGrid [((4, 3), ⟨RED, 1⟩)]

/-- A board with one opponent (blue) cell at `(0, 2)`, the target of the
C2 counterexample. -/
def gOpp : Grid := mkGrid [((0, 2), ⟨BLUE, 1⟩)]

/-- The frontier test board of `tests/test_heuristics.py`:
red at `(0, 0)`, blue at `(0, 1)` and `(1, 0)`. -/
def gFrontier : Grid :=
  mkGrid [((0, 0), ⟨RED, 1⟩), ((0, 1), ⟨BLUE, 1⟩), ((1, 0), ⟨BLUE, 1⟩)]

/-- A small stable mixed board used by heuristic witnesses. -/
def gMixed : Grid :=
  mkGrid [((0, 0), ⟨RED, 1⟩), ((0, 1), ⟨BLUE, 2⟩), ((4, 3), ⟨RED, 3⟩), ((8, 5), ⟨BLUE, 1⟩)]

/-! ### General list lemmas -/

theorem foldl_flatMap {α β γ : Type _} (l : List α) (f : α → List β)
    (g : γ → β → γ) (init : γ) :
    (l.flatMap f).foldl g init = l.foldl (fun a x => (f x).foldl g a) init := by
  induction l generalizing init with
  | nil => rfl
  | cons x xs ih => simp [List.flatMap_cons, List.foldl_append, ih]

/-! ### C1: the resolution pass, spec form vs source form -/

theorem specScan_eq_foldl (l : List (Nat × Nat)) (a : Grid × Bool) :
    specScan l a = l.foldl scanStep a := by
  induction l generalizing a with
  | nil => rfl
  | cons rc rest ih =>
    by_cases h : trigg a.1 rc.1 rc.2
    · simp [specScan, h, List.foldl_cons, scanStep, ih]
    · simp [specScan, h, List.foldl_cons, scanStep, ih]

theorem passG_eq_specScan (g : Grid) : passG g = specScan rowMajor (g, false) := by
  rw [specScan_eq_foldl, rowMajor, foldl_flatMap, passG]
  simp [List.foldl_map]

theorem resolveF_eq_specResolve (fuel : Nat) (g : Grid) :
    resolveF fuel g = specResolve fuel g := by
  induction fuel generalizing g with
  | zero => rfl
  | succ n ih =>
    rw [resolveF, specResolve, ← passG_eq_specScan]
    rcases hp : passG g with ⟨g', ch⟩
    cases ch
    · rfl
    · exact ih g'

/-- C1: `Board.place` resolves chain reactions exactly by the spec's
algorithm: repeated full row-major passes, each visited over-critical
owned cell exploding immediately in place (reset to `{None, 0}`,
orthogonal in-bounds neighbours incremented and captured), resolution
stopping after the first pass with zero explosions. -/
theorem C1_applyMove_algorithm (fuel : Nat) (g : Grid) (p : Int) (rc : Nat × Nat) :
    placeF fuel g p rc = placeSpecF fuel g p rc := by
  unfold placeF placeSpecF
  exact resolveF_eq_specResolve fuel _

/-! ### Cell-update accounting -/

theorem map_sum_set {α : Type _} (f : α → Nat) :
    ∀ (l : List α) (n : Nat) (a d : α), n < l.length →
      ((l.set n a).map f).sum + f (l.getD n d) = (l.map f).sum + f a := by
  intro l
  induction l with
  | nil => intro n a d h; simp at h
  | cons x xs ih =>
    intro n a d h
    cases n with
    | zero => simp; omega
    | succ m =>
      simp only [List.set_cons_succ, List.map_cons, List.sum_cons, List.getD_cons_succ]
      have := ih m a d (by simpa using h)
      omega

theorem set_getD_self {α : Type _} :
    ∀ (l : List α) (n : Nat) (d : α), n < l.length → l.set n (l.getD n d) = l := by
  intro l
  induction l with
  | nil => intro n d h; simp at h
  | cons x xs ih =>
    intro n d h
    cases n with
    | zero => simp
    | succ m => simp only [List.getD_cons_succ, List.set_cons_succ]
                rw [ih m d (by simpa using h)]

/-- The cell `(r, c)` physically exists in the grid's lists. -/
def cellEx (g : Grid) (r c : Nat) : Prop :=
  r < g.length ∧ c < (g.getD r []).length

theorem setC_no_cell (g : Grid) (r c : Nat) (v : Cell) (h : ¬ cellEx g r c) :
    setC g r c v = g := by
  unfold cellEx at h
  push_neg at h
  unfold setC
  by_cases hr : r < g.length
  · have hc := h hr
    rw [List.set_eq_of_length_le hc]
    exact set_getD_self g r [] hr
  · exact List.set_eq_of_length_le (by omega)

theorem getC_no_cell (g : Grid) (r c : Nat) (h : ¬ cellEx g r c) :
    getC g r c = defCell := by
  unfold cellEx at h
  push_neg at h
  unfold getC
  by_cases hr : r < g.length
  · exact List.getD_eq_default _ _ (h hr)
  · have hnil : g.getD r [] = [] := List.getD_eq_default _ _ (by omega)
    rw [hnil]
    rfl

theorem cellEx_of_count_ne (g : Grid) (r c : Nat)
    (h : (getC g r c).count ≠ 0) : cellEx g r c := by
  by_contra hne
  rw [getC_no_cell g r c hne] at h
  exact h rfl

theorem totalOrbs_setC_eq (g : Grid) (r c : Nat) (v : Cell) (h : cellEx g r c) :
    totalOrbs (setC g r c v) + (getC g r c).count = totalOrbs g + v.count := by
  obtain ⟨hr, hc⟩ := h
  have h1 := map_sum_set rowOrbs g r ((g.getD r []).set c v) [] hr
  have h2 : rowOrbs ((g.getD r []).set c v) + ((g.getD r []).getD c defCell).count
      = rowOrbs (g.getD r []) + v.count :=
    map_sum_set Cell.count (g.getD r []) c v defCell hc
  unfold totalOrbs setC getC
  omega

theorem totalOrbs_inc_le (g : Grid) (r c : Nat) (o : Int) :
    totalOrbs (setC g r c ⟨o, (getC g r c).count + 1⟩) ≤ totalOrbs g + 1 := by
  by_cases h : cellEx g r c
  · have := totalOrbs_setC_eq g r c ⟨o, (getC g r c).count + 1⟩ h
    simp at this
    omega
  · rw [setC_no_cell g r c _ h]
    omega

theorem totalOrbs_addOrb_le (g : Grid) (p : Int) (r c : Nat) :
    totalOrbs (addOrb g p r c) ≤ totalOrbs g + 1 :=
  totalOrbs_inc_le g r c p

theorem totalOrbs_bump_le (g : Grid) (o : Int) (nr nc : Int) :
    totalOrbs (bump g o nr nc) ≤ totalOrbs g +
      (if 0 ≤ nr ∧ nr < (ROWS : Int) ∧ 0 ≤ nc ∧ nc < (COLS : Int) then 1 else 0) := by
  unfold bump
  by_cases h : 0 ≤ nr ∧ nr < (ROWS : Int) ∧ 0 ≤ nc ∧ nc < (COLS : Int)
  · simp only [h, if_true]
    exact totalOrbs_inc_le g nr.toNat nc.toNat o
  · simp [h]

theorem crits_ge_two (r c : Nat) : 2 ≤ crits r c := by
  unfold crits
  split_ifs <;> omega

theorem explode_eq (g : Grid) (rr cc : Nat) :
    explode g rr cc =
      bump (bump (bump (bump (setC g rr cc ⟨EMPTY, 0⟩)
        (getC g rr cc).owner ((rr : Int) + 1) ((cc : Int) + 0))
        (getC g rr cc).owner ((rr : Int) + (-1)) ((cc : Int) + 0))
        (getC g rr cc).owner ((rr : Int) + 0) ((cc : Int) + 1))
        (getC g rr cc).owner ((rr : Int) + 0) ((cc : Int) + (-1)) := rfl

theorem guards_le_crits (rr cc : Nat) (hr : rr < ROWS) (hc : cc < COLS) :
    (if 0 ≤ (rr : Int) + 1 ∧ (rr : Int) + 1 < (ROWS : Int) ∧
        0 ≤ (cc : Int) + 0 ∧ (cc : Int) + 0 < (COLS : Int) then 1 else 0)
    + (if 0 ≤ (rr : Int) + (-1) ∧ (rr : Int) + (-1) < (ROWS : Int) ∧
        0 ≤ (cc : Int) + 0 ∧ (cc : Int) + 0 < (COLS : Int) then 1 else 0)
    + (if 0 ≤ (rr : Int) + 0 ∧ (rr : Int) + 0 < (ROWS : Int) ∧
        0 ≤ (cc : Int) + 1 ∧ (cc : Int) + 1 < (COLS : Int) then 1 else 0)
    + (if 0 ≤ (rr : Int) + 0 ∧ (rr : Int) + 0 < (ROWS : Int) ∧
        0 ≤ (cc : Int) + (-1) ∧ (cc : Int) + (-1) < (COLS : Int) then 1 else 0)
    ≤ crits rr cc := by
  unfold crits ROWS COLS at *
  split_ifs <;> omega

theorem trigg_facts (g : Grid) (rr cc : Nat) (ht : trigg g rr cc = true) :
    crits rr cc ≤ (getC g rr cc).count ∧ (getC g rr cc).owner ≠ EMPTY := by
  unfold trigg at ht
  simpa using ht

theorem totalOrbs_explode_le (g : Grid) (rr cc : Nat) (hr : rr < ROWS) (hc : cc < COLS)
    (ht : trigg g rr cc = true) : totalOrbs (explode g rr cc) ≤ totalOrbs g := by
  have hcrit := (trigg_facts g rr cc ht).1
  have h2 := crits_ge_two rr cc
  have hex : cellEx g rr cc := cellEx_of_count_ne g rr cc (by omega)
  have hreset := totalOrbs_setC_eq g rr cc ⟨EMPTY, 0⟩ hex
  rw [explode_eq]
  have hb1 := totalOrbs_bump_le (setC g rr cc ⟨EMPTY, 0⟩)
    (getC g rr cc).owner ((rr : Int) + 1) ((cc : Int) + 0)
  have hb2 := totalOrbs_bump_le (bump (setC g rr cc ⟨EMPTY, 0⟩)
    (getC g rr cc).owner ((rr : Int) + 1) ((cc : Int) + 0))
    (getC g rr cc).owner ((rr : Int) + (-1)) ((cc : Int) + 0)
  have hb3 := totalOrbs_bump_le (bump (bump (setC g rr cc ⟨EMPTY, 0⟩)
    (getC g rr cc).owner ((rr : Int) + 1) ((cc : Int) + 0))
    (getC g rr cc).owner ((rr : Int) + (-1)) ((cc : Int) + 0))
    (getC g rr cc).owner ((rr : Int) + 0) ((cc : Int) + 1)
  have hb4 := totalOrbs_bump_le (bump (bump (bump (setC g rr cc ⟨EMPTY, 0⟩)
    (getC g rr cc).owner ((rr : Int) + 1) ((cc : Int) + 0))
    (getC g rr cc).owner ((rr : Int) + (-1)) ((cc : Int) + 0))
    (getC g rr cc).owner ((rr : Int) + 0) ((cc : Int) + 1))
    (getC g rr cc).owner ((rr : Int) + 0) ((cc : Int) + (-1))
  have hg := guards_le_crits rr cc hr hc
  have hz : (Cell.mk EMPTY 0).count = 0 := rfl
  omega

theorem totalOrbs_scanStep_le (a : Grid × Bool) (pos : Nat × Nat)
    (h1 : pos.1 < ROWS) (h2 : pos.2 < COLS) :
    totalOrbs (scanStep a pos).1 ≤ totalOrbs a.1 := by
  unfold scanStep
  by_cases ht : trigg a.1 pos.1 pos.2
  · simpa [ht] using totalOrbs_explode_le a.1 pos.1 pos.2 h1 h2 ht
  · simp [ht]

theorem totalOrbs_scan_foldl_le :
    ∀ (l : List (Nat × Nat)) (a : Grid × Bool),
      (∀ pos ∈ l, pos.1 < ROWS ∧ pos.2 < COLS) →
      totalOrbs ((l.foldl scanStep a).1) ≤ totalOrbs a.1 := by
  intro l
  induction l with
  | nil => intro a _; exact le_refl _
  | cons pos rest ih =>
    intro a hb
    have h1 := (hb pos (by simp)).1
    have h2 := (hb pos (by simp)).2
    calc totalOrbs ((rest.foldl scanStep (scanStep a pos)).1)
        ≤ totalOrbs (scanStep a pos).1 := ih _ (fun q hq => hb q (by simp [hq]))
      _ ≤ totalOrbs a.1 := totalOrbs_scanStep_le a pos h1 h2

theorem rowMajor_bounds : ∀ pos ∈ rowMajor, pos.1 < ROWS ∧ pos.2 < COLS := by decide

theorem totalOrbs_passG_le (g : Grid) : totalOrbs (passG g).1 ≤ totalOrbs g := by
  rw [passG_eq_specScan, specScan_eq_foldl]
  exact totalOrbs_scan_foldl_le rowMajor (g, false) rowMajor_bounds

theorem totalOrbs_resolveF_le :
    ∀ (fuel : Nat) (g b' : Grid), resolveF fuel g = some b' →
      totalOrbs b' ≤ totalOrbs g := by
  intro fuel
  induction fuel with
  | zero => intro g b' h; exact absurd h (by simp [resolveF])
  | succ n ih =>
    intro g b' h
    rw [resolveF] at h
    rcases hp : passG g with ⟨g', ch⟩
    rw [hp] at h
    have hple : totalOrbs g' ≤ totalOrbs g := by
      have hx := totalOrbs_passG_le g
      rw [hp] at hx
      exact hx
    cases ch
    · cases h
      exact hple
    · exact le_trans (ih g' b' h) hple

/-- C4 (amended): for every move, the total orb count of the board returned
by `Board.place` is at most the input total plus 1; equality can fail,
because an explosion of a cell whose count exceeded its critical mass
destroys the excess orbs. -/
theorem C4_total_orbs_le (fuel : Nat) (g : Grid) (p : Int) (rc : Nat × Nat) (b' : Grid)
    (h : placeF fuel g p rc = some b') : totalOrbs b' ≤ totalOrbs g + 1 :=
  le_trans (totalOrbs_resolveF_le fuel _ b' h)
    (totalOrbs_addOrb_le g p rc.1 rc.2)

/-- The board `Board.place` returns on `gC4` for red at `(0, 0)`. -/
def gC4After : Grid :=
  mkGrid [((0, 1), ⟨RED, 2⟩), ((0, 2), ⟨RED, 1⟩), ((1, 0), ⟨RED, 2⟩),
          ((1, 2), ⟨RED, 1⟩), ((2, 0), ⟨RED, 1⟩), ((2, 1), ⟨RED, 1⟩)]

/-- C4 witness: the amended bound applied at the concrete board `gC4`. -/
theorem C4_total_orbs_le_witness :
    placeF 6 gC4 RED (0, 0) = some gC4After ∧ totalOrbs gC4After ≤ totalOrbs gC4 + 1 :=
  ⟨by decide, C4_total_orbs_le 6 gC4 RED (0, 0) gC4After (by decide)⟩

/-- C4 counterexample: `gC4` is stable, `(0, 0)` is a legal red move, the
input board holds 8 orbs, yet the returned board holds 8 orbs as well —
not 9 as the claim demands. -/
theorem C4_counterexample :
    stableP gC4 ∧ (0, 0) ∈ legalMoves gC4 RED ∧ totalOrbs gC4 = 8 ∧
      (placeF 6 gC4 RED (0, 0)).map totalOrbs = some 8 ∧
      (placeF 6 gC4 RED (0, 0)).map totalOrbs ≠ some (totalOrbs gC4 + 1) := by
  refine ⟨by decide, by decide, by decide, by decide, by decide⟩

/-! ### Pass analysis: quiet passes and no-trigger grids -/

theorem scan_foldl_snd_false :
    ∀ (l : List (Nat × Nat)) (a : Grid × Bool),
      (l.foldl scanStep a).2 = false →
      a.2 = false ∧ (l.foldl scanStep a).1 = a.1 ∧
        ∀ pos ∈ l, trigg a.1 pos.1 pos.2 = false := by
  intro l
  induction l with
  | nil => intro a h; exact ⟨h, rfl, by simp⟩
  | cons pos rest ih =>
    intro a h
    rw [List.foldl_cons] at h
    have hr := ih (scanStep a pos) h
    have hts : trigg a.1 pos.1 pos.2 = false ∧ scanStep a pos = a := by
      by_cases ht : trigg a.1 pos.1 pos.2 = true
      · exfalso
        have : (scanStep a pos).2 = true := by simp [scanStep, ht]
        rw [this] at hr
        exact absurd hr.1 (by simp)
      · have ht' : trigg a.1 pos.1 pos.2 = false := by
          cases hb : trigg a.1 pos.1 pos.2
          · rfl
          · exact absurd hb ht
        exact ⟨ht', by simp [scanStep, ht']⟩
    rw [List.foldl_cons]
    refine ⟨?_, ?_, ?_⟩
    · rw [hts.2] at hr; exact hr.1
    · rw [hts.2] at hr ⊢; exact hr.2.1
    · intro q hq
      rcases List.mem_cons.mp hq with hq | hq
      · rw [hq]; exact hts.1
      · have := hr.2.2 q hq
        rw [hts.2] at this
        exact this

theorem scan_foldl_no_trigg :
    ∀ (l : List (Nat × Nat)) (g : Grid) (ch : Bool),
      (∀ pos ∈ l, trigg g pos.1 pos.2 = false) →
      l.foldl scanStep (g, ch) = (g, ch) := by
  intro l
  induction l with
  | nil => intro g ch _; rfl
  | cons pos rest ih =>
    intro g ch h
    have ht := h pos (by simp)
    rw [List.foldl_cons]
    have hs : scanStep (g, ch) pos = (g, ch) := by simp [scanStep, ht]
    rw [hs]
    exact ih g ch (fun q hq => h q (by simp [hq]))

theorem passG_of_no_trigg (g : Grid)
    (h : ∀ pos ∈ rowMajor, trigg g pos.1 pos.2 = false) :
    passG g = (g, false) := by
  rw [passG_eq_specScan, specScan_eq_foldl]
  exact scan_foldl_no_trigg rowMajor g false h

theorem resolveF_no_trigg :
    ∀ (fuel : Nat) (g b' : Grid), resolveF fuel g = some b' →
      ∀ pos ∈ rowMajor, trigg b' pos.1 pos.2 = false := by
  intro fuel
  induction fuel with
  | zero => intro g b' h; exact absurd h (by simp [resolveF])
  | succ n ih =>
    intro g b' h
    rw [resolveF] at h
    rcases hp : passG g with ⟨g', ch⟩
    rw [hp] at h
    cases ch
    · have hb : g' = b' := Option.some_inj.mp h
      have hq : (rowMajor.foldl scanStep (g, false)).2 = false := by
        rw [← specScan_eq_foldl, ← passG_eq_specScan, hp]
      have hfold := scan_foldl_snd_false rowMajor (g, false) hq
      have hg : g' = g := by
        have h2 : (rowMajor.foldl scanStep (g, false)).1 = g' := by
          rw [← specScan_eq_foldl, ← passG_eq_specScan, hp]
        rw [hfold.2.1] at h2
        exact h2.symm
      intro pos hpos
      rw [← hb, hg]
      exact hfold.2.2 pos hpos
    · exact ih g' b' h

theorem mem_rowMajor (r c : Nat) (hr : r < ROWS) (hc : c < COLS) :
    (r, c) ∈ rowMajor := by
  unfold rowMajor
  simp only [List.mem_flatMap, List.mem_map, List.mem_range]
  exact ⟨r, hr, c, hc, rfl⟩

/-! ### Cell lookup after update -/

theorem getD_set {α : Type _} :
    ∀ (l : List α) (n m : Nat) (a d : α),
      (l.set n a).getD m d = if m = n ∧ n < l.length then a else l.getD m d := by
  intro l
  induction l with
  | nil => intro n m a d; simp
  | cons x xs ih =>
    intro n m a d
    cases n with
    | zero =>
      cases m with
      | zero => simp
      | succ m' => simp
    | succ n' =>
      cases m with
      | zero => simp
      | succ m' =>
        simp only [List.set_cons_succ, List.getD_cons_succ, List.length_cons]
        rw [ih n' m' a d]
        by_cases hm : m' = n' ∧ n' < xs.length
        · rw [if_pos hm, if_pos ⟨by omega, by omega⟩]
        · rw [if_neg hm, if_neg (by omega)]

theorem getC_setC_ne (g : Grid) (r c : Nat) (v : Cell) (r' c' : Nat)
    (h : ¬(r' = r ∧ c' = c)) : getC (setC g r c v) r' c' = getC g r' c' := by
  unfold getC setC
  by_cases hr : r' = r
  · subst hr
    have hc : ¬ c' = c := fun hcc => h ⟨rfl, hcc⟩
    rw [getD_set]
    by_cases hlen : r' = r' ∧ r' < g.length
    · rw [if_pos hlen, getD_set, if_neg (by omega)]
    · rw [if_neg hlen]
  · rw [getD_set, if_neg (by omega)]

theorem getC_setC_eq (g : Grid) (r c : Nat) (v : Cell) (h : cellEx g r c) :
    getC (setC g r c v) r c = v := by
  obtain ⟨hr, hc⟩ := h
  unfold getC setC
  rw [getD_set, if_pos ⟨rfl, hr⟩, getD_set, if_pos ⟨rfl, hc⟩]

theorem getC_setC_cases (g : Grid) (r c : Nat) (v : Cell) (r' c' : Nat) :
    getC (setC g r c v) r' c' = getC g r' c' ∨ getC (setC g r c v) r' c' = v := by
  by_cases h : r' = r ∧ c' = c
  · obtain ⟨h1, h2⟩ := h
    subst h1; subst h2
    by_cases hex : cellEx g r' c'
    · exact Or.inr (getC_setC_eq g r' c' v hex)
    · rw [setC_no_cell g r' c' v hex]
      exact Or.inl rfl
  · exact Or.inl (getC_setC_ne g r c v r' c' h)

/-! ### Coherence preservation -/

theorem coherent_setC (g : Grid) (r c : Nat) (v : Cell)
    (hv : v.owner = EMPTY → v.count = 0) (h : coherentP g) :
    coherentP (setC g r c v) := by
  intro r' hr' c' hc' hemp
  rcases getC_setC_cases g r c v r' c' with he | he
  · rw [he] at hemp ⊢
    exact h r' hr' c' hc' hemp
  · rw [he] at hemp ⊢
    exact hv hemp

theorem coherent_bump (g : Grid) (o : Int) (nr nc : Int) (ho : o ≠ EMPTY)
    (h : coherentP g) : coherentP (bump g o nr nc) := by
  unfold bump
  split
  · exact coherent_setC _ _ _ _ (fun he => absurd he ho) h
  · exact h

theorem coherent_explode (g : Grid) (rr cc : Nat) (ht : trigg g rr cc = true)
    (h : coherentP g) : coherentP (explode g rr cc) := by
  have ho := (trigg_facts g rr cc ht).2
  rw [explode_eq]
  refine coherent_bump _ _ _ _ ho (coherent_bump _ _ _ _ ho
    (coherent_bump _ _ _ _ ho (coherent_bump _ _ _ _ ho
      (coherent_setC _ _ _ _ (fun _ => rfl) h))))

theorem coherent_scanStep (a : Grid × Bool) (pos : Nat × Nat)
    (h : coherentP a.1) : coherentP (scanStep a pos).1 := by
  unfold scanStep
  by_cases ht : trigg a.1 pos.1 pos.2 = true
  · simpa [ht] using coherent_explode a.1 pos.1 pos.2 ht h
  · simp only [Bool.not_eq_true] at ht
    simp [ht, h]

theorem coherent_scan_foldl :
    ∀ (l : List (Nat × Nat)) (a : Grid × Bool),
      coherentP a.1 → coherentP ((l.foldl scanStep a).1) := by
  intro l
  induction l with
  | nil => intro a h; exact h
  | cons pos rest ih =>
    intro a h
    rw [List.foldl_cons]
    exact ih _ (coherent_scanStep a pos h)

theorem coherent_passG (g : Grid) (h : coherentP g) : coherentP (passG g).1 := by
  rw [passG_eq_specScan, specScan_eq_foldl]
  exact coherent_scan_foldl rowMajor (g, false) h

theorem coherent_resolveF :
    ∀ (fuel : Nat) (g b' : Grid), resolveF fuel g = some b' →
      coherentP g → coherentP b' := by
  intro fuel
  induction fuel with
  | zero => intro g b' h; exact absurd h (by simp [resolveF])
  | succ n ih =>
    intro g b' h hco
    rw [resolveF] at h
    rcases hp : passG g with ⟨g', ch⟩
    rw [hp] at h
    have hco' : coherentP g' := by
      have := coherent_passG g hco
      rw [hp] at this
      exact this
    cases ch
    · cases h; exact hco'
    · exact ih g' b' h hco'

theorem coherent_addOrb (g : Grid) (p : Int) (r c : Nat) (hp : p ≠ EMPTY)
    (h : coherentP g) : coherentP (addOrb g p r c) :=
  coherent_setC g r c _ (fun he => absurd he hp) h

/-- C5: every board returned by `Board.place` for an actual player on a
board satisfying the spec's cell invariant (`owner = None ⇒ count = 0`) is
stable: each cell's count is strictly below its critical mass. -/
theorem C5_place_stable (fuel : Nat) (g : Grid) (p : Int) (rc : Nat × Nat) (b' : Grid)
    (hp : p = RED ∨ p = BLUE) (hco : coherentP g)
    (h : placeF fuel g p rc = some b') : stableP b' := by
  have hpe : p ≠ EMPTY := by
    rcases hp with hp | hp <;> rw [hp] <;> decide
  have hcob : coherentP b' :=
    coherent_resolveF fuel _ b' h (coherent_addOrb g p rc.1 rc.2 hpe hco)
  have hnt := resolveF_no_trigg fuel _ b' h
  intro r hr c hc
  have ht := hnt (r, c) (mem_rowMajor r c hr hc)
  have hfacts : ¬(crits r c ≤ (getC b' r c).count ∧ (getC b' r c).owner ≠ EMPTY) := by
    intro hcon
    have : trigg b' r c = true := by
      unfold trigg
      simp [hcon.1, hcon.2]
    rw [this] at ht
    exact absurd ht (by simp)
  by_cases hcnt : crits r c ≤ (getC b' r c).count
  · have howner : (getC b' r c).owner = EMPTY := by
      by_contra how
      exact hfacts ⟨hcnt, how⟩
    have := hcob r hr c hc howner
    have h2 := crits_ge_two r c
    omega
  · omega

/-- C5 witness: the stability theorem applied to the concrete board `gC4`. -/
theorem C5_place_stable_witness :
    (RED = RED ∨ RED = BLUE) ∧ coherentP gC4 ∧ stableP gC4After :=
  ⟨Or.inl rfl, by decide,
    C5_place_stable 6 gC4 RED (0, 0) gC4After (Or.inl rfl) (by decide) (by decide)⟩

/-! ### C2: `Board.place` performs no ownership check -/

theorem trigg_false_of_lt (g : Grid) (r c : Nat)
    (hlt : (getC g r c).count < crits r c) : trigg g r c = false := by
  unfold trigg
  have hn : ¬ (crits r c ≤ (getC g r c).count) := by omega
  simp [hn]

/-- C2 (amended): `Board.place` contains no `IllegalMove` check of any
kind: a move on an opponent-owned cell is processed exactly like any other
move.  On any stable board whose target cell has head-room, `place`
succeeds for every player and returns the board with only the target cell
incremented and captured, regardless of who owned it. -/
theorem C2_place_no_ownership_check (fuel : Nat) (g : Grid) (p : Int) (r c : Nat)
    (hr : r < ROWS) (hc : c < COLS) (hst : stableP g)
    (hh : (getC g r c).count + 1 < crits r c) :
    placeF (fuel + 1) g p (r, c) = some (addOrb g p r c) := by
  have hnt : ∀ pos ∈ rowMajor, trigg (addOrb g p r c) pos.1 pos.2 = false := by
    intro pos hpos
    obtain ⟨pr, pc⟩ := pos
    have hb := rowMajor_bounds (pr, pc) hpos
    by_cases heq : pr = r ∧ pc = c
    · obtain ⟨h1, h2⟩ := heq
      subst h1; subst h2
      by_cases hex : cellEx g pr pc
      · have hv : getC (addOrb g p pr pc) pr pc = ⟨p, (getC g pr pc).count + 1⟩ :=
          getC_setC_eq g pr pc _ hex
        apply trigg_false_of_lt
        rw [hv]
        exact hh
      · have hsame : addOrb g p pr pc = g := setC_no_cell g pr pc _ hex
        rw [hsame]
        exact trigg_false_of_lt g pr pc (by omega)
    · have hsame : getC (addOrb g p r c) pr pc = getC g pr pc :=
        getC_setC_ne g r c _ pr pc heq
      apply trigg_false_of_lt
      rw [hsame]
      exact hst pr hb.1 pc hb.2
  have hp1 : passG (addOrb g p r c) = (addOrb g p r c, false) :=
    passG_of_no_trigg _ hnt
  show resolveF (fuel + 1) (addOrb g p r c) = some (addOrb g p r c)
  rw [resolveF, hp1]
  rfl

/-- C2 witness: `(0, 2)` of `gOpp` is owned by the opponent (blue), yet
red's move there succeeds and captures the cell. -/
theorem C2_place_no_ownership_check_witness :
    (getC gOpp 0 2).owner = BLUE ∧
      placeF 2 gOpp RED (0, 2) = some (addOrb gOpp RED 0 2) :=
  ⟨by decide,
    C2_place_no_ownership_check 1 gOpp RED 0 2 (by decide) (by decide)
      (by decide) (by decide)⟩

/-- C2 counterexample: the claim demands failure on an opponent-owned
target, but `Board.place` succeeds there — red placing on blue's cell
`(0, 2)` of `gOpp` returns a board (no failure path exists in the code)
in which the cell is captured as `{RED, 2}`. -/
theorem C2_counterexample :
    (getC gOpp 0 2).owner = BLUE ∧ BLUE ≠ RED ∧
      (placeF 2 gOpp RED (0, 2)).isSome = true ∧
      (placeF 2 gOpp RED (0, 2)).map (fun b => getC b 0 2) = some ⟨RED, 2⟩ := by
  refine ⟨by decide, by decide, by decide, by decide⟩

/-! ### C6: the resolution loop does not always terminate -/

/-- Iterate the resolution pass a fixed number of times. -/
def passIter : Nat → Grid → Grid
  | 0, g => g
  | n + 1, g => passIter n (passG g).1

theorem passG_addOrb_gFull : passG (addOrb gFull RED 0 0) = (gLoop, true) := by decide

theorem passG_gLoop_fix : passG gLoop = (gLoop, true) := by decide

theorem resolveF_gLoop_none : ∀ fuel, resolveF fuel gLoop = none := by
  intro fuel
  induction fuel with
  | zero => rfl
  | succ n ih =>
    rw [resolveF, passG_gLoop_fix]
    exact ih

/-- C6 counterexample: on the maximal stable single-colour board `gFull`
(every cell red at critical mass − 1), red's move at `(0, 0)` makes the
resolution loop run forever: after one pass the grid `gLoop` reproduces
itself with an explosion on every subsequent pass, so `Board.place` never
returns, however much fuel it is given. -/
theorem C6_counterexample : ¬ placeTerminates gFull RED (0, 0) := by
  rintro ⟨fuel, hf⟩
  have hnone : placeF fuel gFull RED (0, 0) = none := by
    cases fuel with
    | zero => rfl
    | succ n =>
      show resolveF (n + 1) (addOrb gFull RED 0 0) = none
      rw [resolveF, passG_addOrb_gFull]
      exact resolveF_gLoop_none n
  rw [hnone] at hf
  exact absurd hf (by simp)

theorem resolveF_isSome_to_quiet :
    ∀ (fuel : Nat) (g : Grid), (resolveF fuel g).isSome →
      ∃ n, (passG (passIter n g)).2 = false := by
  intro fuel
  induction fuel with
  | zero => intro g h; exact absurd h (by simp [resolveF])
  | succ m ih =>
    intro g h
    rw [resolveF] at h
    rcases hp : passG g with ⟨g', ch⟩
    rw [hp] at h
    cases ch
    · exact ⟨0, by rw [passIter, hp]⟩
    · obtain ⟨k, hk⟩ := ih g' h
      refine ⟨k + 1, ?_⟩
      rw [passIter, hp]
      exact hk

theorem quiet_to_resolveF_isSome :
    ∀ (n : Nat) (g : Grid), (passG (passIter n g)).2 = false →
      (resolveF (n + 1) g).isSome := by
  intro n
  induction n with
  | zero =>
    intro g h
    rw [resolveF]
    rcases hp : passG g with ⟨g', ch⟩
    rw [passIter, hp] at h
    have hch : ch = false := h
    subst hch
    simp
  | succ m ih =>
    intro g h
    rw [resolveF]
    rcases hp : passG g with ⟨g', ch⟩
    rw [passIter, hp] at h
    cases ch
    · simp
    · dsimp only at h ⊢
      rw [Bool.cond_true]
      exact ih g' h

/-- C6 (amended): `Board.place` does not terminate for every board and
coordinate.  It terminates exactly when, starting from the incremented
board, some finite number of row-major passes reaches a pass with no
explosion — which some boards (see the counterexample) never do. -/
theorem C6_place_terminates_iff (g : Grid) (p : Int) (rc : Nat × Nat) :
    placeTerminates g p rc ↔
      ∃ n, (passG (passIter n (addOrb g p rc.1 rc.2))).2 = false := by
  constructor
  · rintro ⟨fuel, hf⟩
    exact resolveF_isSome_to_quiet fuel _ hf
  · rintro ⟨n, hn⟩
    exact ⟨n + 1, quiet_to_resolveF_isSome n _ hn⟩

/-! ### Search theorems (C3, C7, C8) -/

/-- C7: with `started` true and a decided `winner`, `minimax` returns
`(+∞, noMove)` when the winner is the player to move and `(−∞, noMove)`
otherwise, expanding no moves; with `started` false the terminal check is
skipped entirely, so a leaf (depth 0) always returns the heuristic value —
no board, however one-sided, is scored as a win. -/
theorem C7_terminal_check (fuel : Nat) (b : Grid) (depth : Nat) (p : Int)
    (ev : Grid → Int → ℚ) (alpha beta : Ext) :
    (∀ w, winner b = some w →
      mmF ev (fuel + 1) b depth p true alpha beta =
        some ((if w = p then Ext.pinf else Ext.ninf), none))
    ∧ mmF ev (fuel + 1) b 0 p false alpha beta = some (Ext.num (ev b p), none) := by
  constructor
  · intro w hw
    rw [mmF]
    simp only [if_true, hw]
  · rw [mmF]
    simp

/-- C7 witness: the terminal cases at concrete boards — a red-only board
with `started` true is `+∞` for red, while a blue-only board with
`started` false at depth 0 is evaluated heuristically, not as a loss. -/
theorem C7_terminal_check_witness :
    winner gRedOnly = some RED ∧
      mmF orbDiffQ 1 gRedOnly 5 RED true Ext.ninf Ext.pinf = some (Ext.pinf, none) ∧
      mmF orbDiffQ 1 gAllBlue 0 RED false Ext.ninf Ext.pinf =
        some (Ext.num (orbDiffQ gAllBlue RED), none) := by
  refine ⟨by decide, ?_,
    (C7_terminal_check 0 gAllBlue 0 RED orbDiffQ Ext.ninf Ext.pinf).2⟩
  have h := (C7_terminal_check 0 gRedOnly 5 RED orbDiffQ Ext.ninf Ext.pinf).1 RED (by decide)
  simpa using h

theorem mmLoop_none_ninf
    (rec : Grid → Nat → Int → Bool → Ext → Ext → Option (Ext × MoveOpt))
    (fuel : Nat) (b : Grid) (depth : Nat) (p : Int) (started : Bool) :
    ∀ (moves : List (Nat × Nat)) (bv : Ext) (bm : MoveOpt) (alpha beta : Ext)
      (s : Ext) (m : MoveOpt),
      mmLoop rec fuel b depth p started moves bv bm alpha beta = some (s, m) →
      (bm = none → bv = Ext.ninf) → (m = none → s = Ext.ninf) := by
  intro moves
  induction moves with
  | nil =>
    intro bv bm alpha beta s m h hinv hm
    have hp : (bv, bm) = (s, m) := Option.some_inj.mp h
    have h1 : bv = s := congrArg Prod.fst hp
    have h2 : bm = m := congrArg Prod.snd hp
    rw [← h1]
    exact hinv (h2.trans hm)
  | cons mv rest ih =>
    intro bv bm alpha beta s m h hinv hm
    rw [mmLoop] at h
    rcases hpl : placeF fuel b p mv with _ | child
    · rw [hpl] at h
      exact absurd h (by simp)
    · rw [hpl] at h
      dsimp only at h
      rcases hrec : rec child (depth - 1) (1 - p)
          (started || (hasPlayer child RED && hasPlayer child BLUE))
          beta.neg alpha.neg with _ | r
      · rw [hrec] at h
        exact absurd h (by simp)
      · rw [hrec] at h
        dsimp only at h
        by_cases hcut : Ext.blt (Ext.bmax alpha r.1.neg) beta = true
        · rw [if_pos hcut] at h
          refine ih _ _ _ _ _ _ h ?_ hm
          intro hbm'
          by_cases hlt : Ext.blt bv r.1.neg = true
          · rw [if_pos hlt] at hbm'
            exact absurd hbm' (by simp)
          · rw [if_neg hlt] at hbm' ⊢
            exact hinv hbm'
        · rw [if_neg hcut] at h
          have hp2 : ((if Ext.blt bv r.1.neg then r.1.neg else bv),
              (if Ext.blt bv r.1.neg then some mv else bm)) = (s, m) :=
            Option.some_inj.mp h
          have h1 := congrArg Prod.fst hp2
          have h2 := congrArg Prod.snd hp2
          dsimp only at h1 h2
          rw [← h1]
          by_cases hlt : Ext.blt bv r.1.neg = true
          · rw [if_pos hlt] at h2
            exact absurd (h2.trans hm) (by simp)
          · rw [if_neg hlt] at h1 h2 ⊢
            exact hinv (h2.trans hm)

/-- C3 (amended): a root `minimax` call at depth ≥ 1 on a non-terminal
position with at least one legal move returns `noMove` only when its
returned score is `−∞` — i.e. only when every examined move is a proven
loss; at depth 0 or on a terminal board it returns `noMove` regardless of
the legal moves. -/
theorem C3_root_nonempty_move (fuel : Nat) (b : Grid) (depth : Nat) (p : Int)
    (ev : Grid → Int → ℚ) (started : Bool) (alpha beta : Ext) (s : Ext) (m : MoveOpt)
    (hne : legalMoves b p ≠ [])
    (hterm : started = true → winner b = none) (hd : depth ≠ 0)
    (h : mmF ev (fuel + 1) b depth p started alpha beta = some (s, m)) :
    m = none → s = Ext.ninf := by
  rw [mmF] at h
  have hsc : (if started = true then winner b else none) = none := by
    cases started
    · rfl
    · exact hterm rfl
  rw [hsc] at h
  dsimp only at h
  rw [if_neg hd] at h
  exact mmLoop_none_ninf _ fuel b depth p started (legalMoves b p)
    Ext.ninf none alpha beta s m h (fun _ => rfl)

/-- A board with a single legal red move: blue owns every cell except the
empty interior cell `(4, 3)`. -/
def gMostlyBlue : Grid :=
  (List.range ROWS).map (fun r => (List.range COLS).map (fun c =>
    if r = 4 ∧ c = 3 then defCell else (⟨BLUE, 1⟩ : Cell)))

/-- C3 witness: the amended root guarantee applied at `gMostlyBlue`, where
red's single move `(4, 3)` is returned with its exact (finite) score. -/
theorem C3_root_nonempty_move_witness :
    legalMoves gMostlyBlue RED ≠ [] ∧
      mmF orbDiffQ 3 gMostlyBlue 1 RED false Ext.ninf Ext.pinf =
        some (Ext.num (-52), some (4, 3)) ∧
      ((some (4, 3) : MoveOpt) = none → Ext.num (-52) = Ext.ninf) :=
  ⟨by decide, by decide,
    C3_root_nonempty_move 2 gMostlyBlue 1 RED orbDiffQ false Ext.ninf Ext.pinf
      (Ext.num (-52)) (some (4, 3)) (by decide) (fun hx => nomatch hx)
      (by decide) (by decide)⟩

/-- C3 counterexample: a depth-0 root call on the empty board has 54 legal
moves and no deadline at all, yet returns `noMove` — `minimax` evaluates
the leaf without ever examining a move. -/
theorem C3_counterexample :
    legalMoves emptyGrid RED ≠ [] ∧
      mmF orbDiffQ 2 emptyGrid 0 RED false Ext.ninf Ext.pinf =
        some (Ext.num 0, none) := by
  refine ⟨by decide, by decide⟩

/-- C8 (amended): when the terminal check does not fire, the depth is
positive and the legal-move list is empty, `minimax` returns
`(−∞, noMove)` — the initial best value and best move — and does not
crash; it does not return the heuristic value the spec prescribes. -/
theorem C8_no_moves (fuel : Nat) (b : Grid) (depth : Nat) (p : Int)
    (ev : Grid → Int → ℚ) (started : Bool) (alpha beta : Ext)
    (hterm : started = true → winner b = none) (hd : depth ≠ 0)
    (hmoves : legalMoves b p = []) :
    mmF ev (fuel + 1) b depth p started alpha beta = some (Ext.ninf, none) := by
  rw [mmF]
  have hsc : (if started = true then winner b else none) = none := by
    cases started
    · rfl
    · exact hterm rfl
  rw [hsc]
  dsimp only
  rw [if_neg hd, hmoves]
  rfl

/-- C8 witness: the empty-move-list behaviour at the all-blue board with
`started` false and depth 1. -/
theorem C8_no_moves_witness :
    legalMoves gAllBlue RED = [] ∧
      mmF orbDiffQ 4 gAllBlue 1 RED false Ext.ninf Ext.pinf = some (Ext.ninf, none) :=
  ⟨by decide,
    C8_no_moves 3 gAllBlue 1 RED orbDiffQ false Ext.ninf Ext.pinf
      (fun hx => nomatch hx) (by decide) (by decide)⟩

/-- C8 counterexample: with no legal moves (all-blue board, red to move,
`started` false, depth 1) `minimax` returns `(−∞, noMove)`, not
`(evaluate(board, playerToMove), noMove)` as the claim states — the
heuristic value of that board is `−54`, not `−∞`. -/
theorem C8_counterexample :
    legalMoves gAllBlue RED = [] ∧
      mmF orbDiffQ 4 gAllBlue 1 RED false Ext.ninf Ext.pinf = some (Ext.ninf, none) ∧
      orbDiffQ gAllBlue RED = -54 ∧
      Ext.ninf ≠ Ext.num (orbDiffQ gAllBlue RED) := by
  refine ⟨by decide, by decide, by decide, by decide⟩

/-! ### C9: the frontier strategy scans only right and down -/

theorem foldl_congr_mem {α β : Type _} :
    ∀ (l : List α) (f h : β → α → β) (b : β),
      (∀ (x : β) (a : α), a ∈ l → f x a = h x a) →
      l.foldl f b = l.foldl h b := by
  intro l
  induction l with
  | nil => intro f h b _; rfl
  | cons x xs ih =>
    intro f h b hfh
    rw [List.foldl_cons, List.foldl_cons, hfh b x (by simp)]
    exact ih f h _ (fun y a ha => hfh y a (by simp [ha]))

theorem sum_map_eq_foldl {α : Type _} (f : α → Int) :
    ∀ (l : List α) (a : Int), a + (l.map f).sum = l.foldl (fun s x => s + f x) a := by
  intro l
  induction l with
  | nil => intro a; simp
  | cons x xs ih =>
    intro a
    rw [List.map_cons, List.sum_cons, List.foldl_cons, ← ih (a + f x)]
    ring

theorem sum_map_eq_foldl0 {α : Type _} (f : α → Int) (l : List α) :
    (l.map f).sum = l.foldl (fun s x => s + f x) 0 := by
  rw [← sum_map_eq_foldl, zero_add]

/-- C9 counterexample: on the test board of `tests/test_heuristics.py`
(red at `(0, 0)`, blue at `(0, 1)` and `(1, 0)`), the implemented
`frontier` returns 2 while the claim's four-direction, both-sides sum
returns 0 (it cancels every border and is in fact identically zero). -/
theorem C9_counterexample :
    wfGrid gFrontier ∧ frontier gFrontier RED = 2 ∧
      frontierSpec4 gFrontier RED = 0 ∧
      frontier gFrontier RED ≠ frontierSpec4 gFrontier RED := by
  refine ⟨by decide, by decide, by decide, by decide⟩

/-- C9 (amended): the frontier evaluation checks only the right and down
neighbour of each cell — each physical border counted exactly once —
adding 1 when the source cell is owned by the player and the neighbour by
the opponent and subtracting 1 in the mirror case. -/
theorem C9_frontier_right_down (g : Grid) (p : Int) (hwf : wfGrid g) :
    frontier g p = frontierSpec2 g p := by
  obtain ⟨hlen, hrow⟩ := hwf
  have hcols : (g.headD []).length = COLS := by
    cases g with
    | nil => simp [ROWS] at hlen
    | cons r0 rs => exact hrow r0 (by simp)
  have hrl : ∀ r, r < g.length → (g.getD r []).length = COLS := by
    intro r hr
    refine hrow _ ?_
    rw [List.getD_eq_getElem g [] hr]
    exact List.getElem_mem hr
  -- normalize both sides to nested folds over the ranges
  unfold frontier frontierSpec2 rowMajor
  rw [sum_map_eq_foldl0, foldl_flatMap]
  simp only [hlen, hcols]
  refine foldl_congr_mem _ _ _ _ ?_
  intro x r hr
  rw [hrl r (by rw [hlen]; exact List.mem_range.mp hr), List.foldl_map]
  refine foldl_congr_mem _ _ _ _ ?_
  intro t c _
  simp only [fdirs, List.foldl_cons, List.foldl_nil, List.map_cons, List.map_nil,
    List.sum_cons, List.sum_nil]
  dsimp only
  unfold fcontrib
  split_ifs <;> omega

/-- C9 witness: the amended form evaluated on the repository's own
frontier test board. -/
theorem C9_frontier_right_down_witness :
    wfGrid gFrontier ∧ frontier gFrontier RED = frontierSpec2 gFrontier RED :=
  ⟨by decide, C9_frontier_right_down gFrontier RED (by decide)⟩

/-! ### C10: antisymmetry of all five heuristics -/

theorem foldl_conj {α β : Type _} (n : β → β) (f h : β → α → β)
    (hfh : ∀ s x, h (n s) x = n (f s x)) :
    ∀ (l : List α) (s : β), l.foldl h (n s) = n (l.foldl f s) := by
  intro l
  induction l with
  | nil => intro s; rfl
  | cons x xs ih =>
    intro s
    rw [List.foldl_cons, List.foldl_cons, hfh]
    exact ih (f s x)

theorem foldl_neg_zero {α R : Type _} [Ring R] (f h : R → α → R)
    (hfh : ∀ s x, h (-s) x = -(f s x)) (l : List α) :
    l.foldl h 0 = -(l.foldl f 0) := by
  have hc := foldl_conj Neg.neg f h hfh l 0
  rwa [neg_zero] at hc

theorem p_ne_one_sub (p : Int) : p ≠ 1 - p := by omega

theorem orbDifference_antisym (g : Grid) (p : Int) :
    orbDifference g (1 - p) = -(orbDifference g p) := by
  unfold orbDifference
  have h1p : (1 : Int) - (1 - p) = p := by ring
  rw [h1p]
  ring

theorem weightedOrb_antisym (g : Grid) (p : Int) :
    weightedOrb g (1 - p) = -(weightedOrb g p) := by
  unfold weightedOrb
  have h1p : (1 : Int) - (1 - p) = p := by ring
  simp only [h1p]
  refine foldl_neg_zero _ _ ?_ (List.range g.length)
  intro s r
  refine foldl_conj Neg.neg _ _ ?_ (List.range (g.getD r []).length) s
  intro t c
  dsimp only
  split_ifs <;> first | ring1 | (exfalso; omega)

theorem frontier_antisym (g : Grid) (p : Int) :
    frontier g (1 - p) = -(frontier g p) := by
  unfold frontier
  have h1p : (1 : Int) - (1 - p) = p := by ring
  simp only [h1p]
  refine foldl_neg_zero _ _ ?_ (List.range g.length)
  intro s r
  refine foldl_conj Neg.neg _ _ ?_ (List.range (g.getD r []).length) s
  intro t c
  refine foldl_conj Neg.neg _ _ ?_ fdirs t
  intro u d
  dsimp only
  split_ifs <;> first | ring1 | (exfalso; omega)

theorem mobility_antisym (g : Grid) (p : Int) :
    mobility g (1 - p) = -(mobility g p) := by
  unfold mobility
  have h1p : (1 : Int) - (1 - p) = p := by ring
  rw [h1p]
  ring

theorem imminent_antisym (g : Grid) (p : Int) :
    imminent g (1 - p) = -(imminent g p) := by
  unfold imminent
  have h1p : (1 : Int) - (1 - p) = p := by ring
  simp only [h1p]
  refine foldl_neg_zero _ _ ?_ (List.range g.length)
  intro s r
  refine foldl_conj Neg.neg _ _ ?_ (List.range (g.getD r []).length) s
  intro t c
  dsimp only
  split_ifs <;> first | ring1 | (exfalso; omega)

/-- C10: each of the five supplied evaluation strategies is antisymmetric
on every stable board: `evaluate(b, p) = -evaluate(b, 1 - p)` for each
player (the proof in fact needs neither stability nor the player range —
the exact rational embedding of `imminent_explosions` is antisymmetric
even where Python would divide by zero). -/
theorem C10_heuristics_antisymmetric (g : Grid) (p : Int)
    (hst : stableP g) (hp : p = RED ∨ p = BLUE) :
    orbDifference g p = -(orbDifference g (1 - p)) ∧
      weightedOrb g p = -(weightedOrb g (1 - p)) ∧
      frontier g p = -(frontier g (1 - p)) ∧
      mobility g p = -(mobility g (1 - p)) ∧
      imminent g p = -(imminent g (1 - p)) := by
  refine ⟨?_, ?_, ?_, ?_, ?_⟩
  · have h := orbDifference_antisym g p
    omega
  · have h := weightedOrb_antisym g p
    omega
  · have h := frontier_antisym g p
    omega
  · have h := mobility_antisym g p
    omega
  · have h := imminent_antisym g p
    linarith

/-- C10 witness: antisymmetry evaluated at the concrete stable mixed
board `gMixed` for red. -/
theorem C10_heuristics_antisymmetric_witness :
    stableP gMixed ∧ (RED = RED ∨ RED = BLUE) ∧
      (orbDifference gMixed RED = -(orbDifference gMixed (1 - RED)) ∧
        weightedOrb gMixed RED = -(weightedOrb gMixed (1 - RED)) ∧
        frontier gMixed RED = -(frontier gMixed (1 - RED)) ∧
        mobility gMixed RED = -(mobility gMixed (1 - RED)) ∧
        imminent gMixed RED = -(imminent gMixed (1 - RED))) :=
  ⟨by decide, Or.inl rfl,
    C10_heuristics_antisymmetric gMixed RED (by decide) (Or.inl rfl)⟩

end ChainReaction
